import Mathlib

/-!
Verification of the `ascii` module of `utils_rust`: an encoder and decoder
between raw text and decimal numeric character references (`&#N;`).
Strings are embedded as `List Char`; Rust's `u32` arithmetic is embedded as
`Nat` with explicit bounds checks against `2 ^ 32`.
-/

namespace UtilsRust

namespace Ascii

/-- Numeric value of a decimal digit character, as in Rust's
to_digit with radix 10. -/
def digitVal? (c : Char) : Option Nat :=
  if 48 ≤ c.toNat ∧ c.toNat ≤ 57 then some (c.toNat - 48) else none

/-- One step of the accumulating loop of u32::from_str_radix with radix 10:
checked multiply by 10 and checked add of the next digit, failing once the
value would exceed u32::MAX. -/
def parseStep (acc : Option Nat) (c : Char) : Option Nat :=
  match acc, digitVal? c with
  | some a, some d => if a * 10 + d < 4294967296 then some (a * 10 + d) else none
  | _, _ => none

/-- The digit-consuming loop of u32::from_str_radix with radix 10. -/
def parseDigits (l : List Char) : Option Nat :=
  l.foldl parseStep (some 0)

/-- Rust's u32::from_str_radix(input, 10): the empty string fails, an
optional leading plus sign is accepted (a minus sign is not a digit and
fails), then the digit loop runs on the remainder. -/
def fromStrRadix10 (l : List Char) : Option Nat :=
  match l with
  | [] => none
  | c :: rest =>
    if c = '+' then (if rest = [] then none else parseDigits rest)
    else parseDigits (c :: rest)

/-- Embedding of parse_unicode: parse the string as a u32, then convert with
char::from_u32, which succeeds exactly on Unicode scalar values. -/
def parse_unicode (l : List Char) : Option Char :=
  match fromStrRadix10 l with
  | none => none
  | some n => if n.isValidChar then some (Char.ofNat n) else none

/-- Embedding of item.replace(the marker, the empty string): delete every
non-overlapping occurrence of the two-character marker, scanning left to
right. -/
def removeAmpHash : List Char → List Char
  | [] => []
  | [c] => [c]
  | c1 :: c2 :: rest =>
    if c1 = '&' ∧ c2 = '#' then removeAmpHash rest
    else c1 :: removeAmpHash (c2 :: rest)

/-- Embedding of u.split with separator semicolon: the empty string yields
one empty segment, and each semicolon starts a new segment, so a trailing
semicolon yields a trailing empty segment. -/
def splitSemi : List Char → List (List Char)
  | [] => [[]]
  | c :: rest =>
    if c = ';' then [] :: splitSemi rest
    else (splitSemi rest).modifyHead (c :: ·)

/-- The per-segment closure inside decode: strip the marker, then decode one
numeric reference, contributing nothing on any failure. -/
def decodeSegment (item : List Char) : List Char :=
  match parse_unicode (removeAmpHash item) with
  | some x => [x]
  | none => []

/-- Embedding of decode: split on semicolons, decode each segment, and
concatenate the contributions in order. -/
def decode (u : List Char) : List Char :=
  ((splitSemi u).map decodeSegment).flatten

/-- Fuel-indexed decimal printer: digits of n, most significant first,
empty for 0. The fuel argument makes the recursion structural. -/
def decDigitsAux : Nat → Nat → List Char
  | 0, _ => []
  | _ + 1, 0 => []
  | fuel + 1, n + 1 =>
    decDigitsAux fuel ((n + 1) / 10) ++ [Char.ofNat (48 + (n + 1) % 10)]

/-- Decimal representation of a u32 value as printed by format!: no sign,
no leading zeros, and a single digit 0 for zero. -/
def natToDec (n : Nat) : List Char :=
  if n = 0 then ['0'] else decDigitsAux n n

/-- Embedding of encode: map every character to the marker followed by its
decimal code point and a semicolon, and concatenate the tokens. -/
def encode (s : List Char) : List Char :=
  (s.map (fun c => '&' :: '#' :: (natToDec c.toNat ++ [';']))).flatten

/-- Written from the spec's words, for comparison with encode: the numeric
character reference token of one character. -/
def ncrToken (c : Char) : List Char :=
  '&' :: '#' :: (natToDec c.toNat ++ [';'])

/-- Written from the spec's words, for comparison with encode: map every
character, in original left-to-right order, to its token and concatenate
with no delimiter; empty input yields empty output. -/
def encodeSpec : List Char → List Char
  | [] => []
  | c :: rest => ncrToken c ++ encodeSpec rest

/-- A printable Unicode character: not a C0 or C1 control character and
not DEL. -/
@[reducible] def printableChar (c : Char) : Prop :=
  32 ≤ c.toNat ∧ c.toNat ≠ 127 ∧ ¬ (128 ≤ c.toNat ∧ c.toNat ≤ 159)

/-- The pure accumulator step of the digit loop, with no overflow check. -/
def pureStep (a : Nat) (c : Char) : Nat :=
  a * 10 + (c.toNat - 48)

theorem splitSemi_ne_nil (l : List Char) : splitSemi l ≠ [] := by
  induction l with
  | nil => simp [splitSemi]
  | cons c rest ih =>
    obtain ⟨s, ss, e⟩ := List.exists_cons_of_ne_nil ih
    by_cases hc : c = ';' <;> simp [splitSemi, hc, e]

theorem splitSemi_no_semi (l : List Char) (h : ';' ∉ l) : splitSemi l = [l] := by
  induction l with
  | nil => rfl
  | cons c rest ih =>
    have hc : ¬ (c = ';') := fun e => h (by simp [e])
    have hr : ';' ∉ rest := fun m => h (List.mem_cons_of_mem _ m)
    simp [splitSemi, hc, ih hr]

theorem splitSemi_append_semi (s t : List Char) (h : ';' ∉ s) :
    splitSemi (s ++ ';' :: t) = s :: splitSemi t := by
  induction s with
  | nil => simp [splitSemi]
  | cons c rest ih =>
    have hc : ¬ (c = ';') := fun e => h (by simp [e])
    have hr : ';' ∉ rest := fun m => h (List.mem_cons_of_mem _ m)
    simp [splitSemi, hc, ih hr]

theorem splitSemi_append_last (u : List Char) :
    splitSemi (u ++ [';']) = splitSemi u ++ [[]] := by
  induction u with
  | nil => rfl
  | cons c rest ih =>
    obtain ⟨s, ss, e⟩ := List.exists_cons_of_ne_nil (splitSemi_ne_nil rest)
    by_cases hc : c = ';' <;> simp [splitSemi, hc, ih, e]

theorem decode_nil : decode [] = [] := rfl

theorem decodeSegment_nil : decodeSegment [] = [] := rfl

theorem decode_append (s t : List Char) (h : ';' ∉ s) :
    decode (s ++ ';' :: t) = decodeSegment s ++ decode t := by
  simp only [decode, splitSemi_append_semi s t h, List.map_cons, List.flatten_cons]

theorem decode_trailing_semi (u : List Char) : decode (u ++ [';']) = decode u := by
  simp only [decode, splitSemi_append_last, List.map_append, List.flatten_append,
    List.map_cons, List.map_nil, List.flatten_cons, List.flatten_nil,
    decodeSegment_nil, List.append_nil]

theorem decode_no_semi (l : List Char) (h : ';' ∉ l) : decode l = decodeSegment l := by
  simp only [decode, splitSemi_no_semi l h, List.map_cons, List.map_nil,
    List.flatten_cons, List.flatten_nil, List.append_nil]

theorem removeAmpHash_marker (l : List Char) :
    removeAmpHash ('&' :: '#' :: l) = removeAmpHash l := by
  simp [removeAmpHash]

theorem removeAmpHash_no_amp : ∀ l : List Char, '&' ∉ l → removeAmpHash l = l
  | [], _ => rfl
  | [_], _ => rfl
  | c1 :: c2 :: rest, h => by
    have h1 : ¬ (c1 = '&' ∧ c2 = '#') := fun hc => h (by simp [hc.1])
    have h2 : '&' ∉ c2 :: rest := fun m => h (List.mem_cons_of_mem _ m)
    simp only [removeAmpHash, if_neg h1, removeAmpHash_no_amp (c2 :: rest) h2]

theorem removeAmpHash_middle : ∀ (l1 l2 : List Char), '&' ∉ l1 →
    removeAmpHash (l1 ++ '&' :: '#' :: l2) = l1 ++ removeAmpHash l2
  | [], l2, _ => by simpa using removeAmpHash_marker l2
  | [c], l2, h => by
    have h1 : ¬ (c = '&' ∧ '&' = '#') := fun hc => h (by simp [hc.1])
    simp [removeAmpHash, h1, removeAmpHash_marker]
  | c1 :: c2 :: rest, l2, h => by
    have h1 : ¬ (c1 = '&' ∧ c2 = '#') := fun hc => h (by simp [hc.1])
    have h2 : '&' ∉ c2 :: rest := fun m => h (List.mem_cons_of_mem _ m)
    have hr := removeAmpHash_middle (c2 :: rest) l2 h2
    simp only [List.cons_append] at hr ⊢
    simp [removeAmpHash, h1, hr]

theorem toNat_ofNat_valid {n : Nat} (h : n.isValidChar) : (Char.ofNat n).toNat = n := by
  unfold Char.ofNat
  rw [dif_pos h]
  rfl

theorem digit_char_valid {m : Nat} (h : m < 10) : (48 + m).isValidChar :=
  Or.inl (by omega)

theorem char_valid_toNat (c : Char) : c.toNat.isValidChar := c.valid

theorem char_toNat_lt (c : Char) : c.toNat < 4294967296 := by
  rcases char_valid_toNat c with h | ⟨_, h⟩ <;> omega

theorem decDigitsAux_digits : ∀ (fuel n : Nat), ∀ c ∈ decDigitsAux fuel n,
    48 ≤ c.toNat ∧ c.toNat ≤ 57
  | 0, _, c, hc => by simp [decDigitsAux] at hc
  | _ + 1, 0, c, hc => by simp [decDigitsAux] at hc
  | fuel + 1, n + 1, c, hc => by
    simp only [decDigitsAux, List.mem_append, List.mem_singleton] at hc
    rcases hc with hc | hc
    · exact decDigitsAux_digits fuel ((n + 1) / 10) c hc
    · have hm : (n + 1) % 10 < 10 := Nat.mod_lt _ (by omega)
      subst hc
      rw [toNat_ofNat_valid (digit_char_valid hm)]
      omega

theorem natToDec_digits (n : Nat) : ∀ c ∈ natToDec n, 48 ≤ c.toNat ∧ c.toNat ≤ 57 := by
  intro c hc
  unfold natToDec at hc
  split at hc
  · simp at hc
    subst hc
    decide
  · exact decDigitsAux_digits n n c hc

theorem natToDec_ne_nil (n : Nat) : natToDec n ≠ [] := by
  unfold natToDec
  split
  · simp
  · cases n with
    | zero => simp_all
    | succ m => simp [decDigitsAux]

theorem decDigitsAux_foldl : ∀ (fuel n : Nat), n ≤ fuel → ∀ a : Nat,
    List.foldl pureStep a (decDigitsAux fuel n) =
      a * 10 ^ (decDigitsAux fuel n).length + n
  | 0, n, h, a => by
    have : n = 0 := Nat.le_zero.mp h
    subst this
    simp [decDigitsAux]
  | _ + 1, 0, _, a => by simp [decDigitsAux]
  | fuel + 1, n + 1, h, a => by
    have hq : (n + 1) / 10 ≤ fuel := by
      have := Nat.div_lt_self (Nat.succ_pos n) (by omega : 1 < 10)
      omega
    have ih := decDigitsAux_foldl fuel ((n + 1) / 10) hq a
    have hm : (n + 1) % 10 < 10 := Nat.mod_lt _ (by omega)
    simp only [decDigitsAux, List.foldl_append, List.foldl_cons, List.foldl_nil,
      List.length_append, List.length_cons, List.length_nil, ih]
    rw [pureStep, toNat_ofNat_valid (digit_char_valid hm)]
    have hrw : (a * 10 ^ (decDigitsAux fuel ((n + 1) / 10)).length + (n + 1) / 10) * 10 +
        (48 + (n + 1) % 10 - 48) =
        a * 10 ^ ((decDigitsAux fuel ((n + 1) / 10)).length + 1) +
          (10 * ((n + 1) / 10) + (n + 1) % 10) := by
      rw [pow_succ]
      ring_nf
      omega
    rw [hrw, Nat.div_add_mod]

theorem foldl_pureStep_le : ∀ (l : List Char) (a : Nat), a ≤ List.foldl pureStep a l
  | [], a => Nat.le_refl a
  | c :: rest, a => by
    have h1 : a ≤ pureStep a c := by unfold pureStep; omega
    have h2 := foldl_pureStep_le rest (pureStep a c)
    simpa using Nat.le_trans h1 h2

theorem foldl_parseStep_some : ∀ (l : List Char) (a : Nat),
    (∀ c ∈ l, 48 ≤ c.toNat ∧ c.toNat ≤ 57) →
    List.foldl pureStep a l < 4294967296 →
    List.foldl parseStep (some a) l = some (List.foldl pureStep a l)
  | [], a, _, _ => rfl
  | c :: rest, a, hd, hb => by
    have hc := hd c (List.mem_cons_self c rest)
    have hdv : digitVal? c = some (c.toNat - 48) := by
      unfold digitVal?
      rw [if_pos hc]
    have hb2 : List.foldl pureStep (pureStep a c) rest < 4294967296 := by
      simpa using hb
    have hlt : a * 10 + (c.toNat - 48) < 4294967296 :=
      Nat.lt_of_le_of_lt (foldl_pureStep_le rest (pureStep a c)) hb2
    have hstep : parseStep (some a) c = some (pureStep a c) := by
      simp [parseStep, hdv, pureStep, if_pos hlt]
    simp only [List.foldl_cons, hstep]
    exact foldl_parseStep_some rest (pureStep a c)
      (fun d m => hd d (List.mem_cons_of_mem _ m)) hb2

theorem parseDigits_natToDec (n : Nat) (h : n < 4294967296) :
    parseDigits (natToDec n) = some n := by
  by_cases h0 : n = 0
  · subst h0
    decide
  · have hval : List.foldl pureStep 0 (natToDec n) = n := by
      unfold natToDec
      rw [if_neg h0]
      rw [decDigitsAux_foldl n n (Nat.le_refl n) 0]
      simp
    unfold parseDigits
    rw [foldl_parseStep_some (natToDec n) 0 (natToDec_digits n) (by rw [hval]; exact h), hval]

theorem fromStrRadix10_digits (l : List Char) (hne : l ≠ [])
    (hd : ∀ c ∈ l, 48 ≤ c.toNat ∧ c.toNat ≤ 57) :
    fromStrRadix10 l = parseDigits l := by
  obtain ⟨c, rest, e⟩ := List.exists_cons_of_ne_nil hne
  subst e
  have hc := hd c (List.mem_cons_self c rest)
  have hplus : ¬ (c = '+') := by
    intro ep
    subst ep
    revert hc
    decide
  simp [fromStrRadix10, hplus]

theorem fromStrRadix10_natToDec (n : Nat) (h : n < 4294967296) :
    fromStrRadix10 (natToDec n) = some n := by
  rw [fromStrRadix10_digits (natToDec n) (natToDec_ne_nil n) (natToDec_digits n),
    parseDigits_natToDec n h]

theorem parse_unicode_natToDec (c : Char) : parse_unicode (natToDec c.toNat) = some c := by
  unfold parse_unicode
  rw [fromStrRadix10_natToDec c.toNat (char_toNat_lt c)]
  simp [char_valid_toNat c]

theorem amp_notin_natToDec (n : Nat) : '&' ∉ natToDec n := by
  intro m
  have := natToDec_digits n '&' m
  revert this
  decide

theorem semi_notin_token (c : Char) : ';' ∉ ('&' :: '#' :: natToDec c.toNat) := by
  intro m
  simp only [List.mem_cons] at m
  rcases m with h | h | h
  · exact absurd h (by decide)
  · exact absurd h (by decide)
  · have := natToDec_digits c.toNat ';' h
    revert this
    decide

theorem decodeSegment_token (c : Char) :
    decodeSegment ('&' :: '#' :: natToDec c.toNat) = [c] := by
  unfold decodeSegment
  rw [removeAmpHash_marker, removeAmpHash_no_amp _ (amp_notin_natToDec c.toNat),
    parse_unicode_natToDec]

theorem decode_encode : ∀ T : List Char, decode (encode T) = T
  | [] => rfl
  | c :: T => by
    have he : encode (c :: T) = ('&' :: '#' :: natToDec c.toNat) ++ ';' :: encode T := by
      simp [encode]
    rw [he, decode_append _ _ (semi_notin_token c), decodeSegment_token, decode_encode T]
    rfl

theorem parseStep_bad {c : Char} (h : digitVal? c = none) (acc : Option Nat) :
    parseStep acc c = none := by
  cases acc <;> simp [parseStep, h]

theorem foldl_parseStep_none : ∀ l : List Char, List.foldl parseStep none l = none
  | [] => rfl
  | c :: rest => by
    have : parseStep none c = none := by simp [parseStep]
    simp only [List.foldl_cons, this, foldl_parseStep_none rest]

theorem foldl_parseStep_bad : ∀ (l : List Char) (acc : Option Nat) (c : Char),
    c ∈ l → digitVal? c = none → List.foldl parseStep acc l = none
  | d :: rest, acc, c, hm, hdv => by
    simp only [List.mem_cons] at hm
    rcases hm with h | h
    · subst h
      simp only [List.foldl_cons, parseStep_bad hdv acc, foldl_parseStep_none rest]
    · simp only [List.foldl_cons]
      exact foldl_parseStep_bad rest (parseStep acc d) c h hdv

theorem parseDigits_bad {l : List Char} {c : Char} (hm : c ∈ l)
    (hdv : digitVal? c = none) : parseDigits l = none :=
  foldl_parseStep_bad l (some 0) c hm hdv

theorem fromStrRadix10_minus (l : List Char) : fromStrRadix10 ('-' :: l) = none := by
  have hne : ¬ (('-' : Char) = '+') := by decide
  simp only [fromStrRadix10, if_neg hne]
  exact parseDigits_bad (List.mem_cons_self '-' l) (by decide)

theorem fromStrRadix10_space (l : List Char) (h : ' ' ∈ l) : fromStrRadix10 l = none := by
  have hsp : digitVal? ' ' = none := by decide
  cases l with
  | nil => simp at h
  | cons c rest =>
    by_cases hc : c = '+'
    · subst hc
      have hr : ' ' ∈ rest := by
        rcases List.mem_cons.mp h with e | m
        · exact absurd e (by decide)
        · exact m
      have hne : rest ≠ [] := List.ne_nil_of_mem hr
      simp only [fromStrRadix10, if_pos rfl, if_neg hne]
      exact parseDigits_bad hr hsp
    · simp only [fromStrRadix10, if_neg hc]
      exact parseDigits_bad h hsp

theorem decodeSegment_parse_failure (seg : List Char)
    (h : fromStrRadix10 (removeAmpHash seg) = none) : decodeSegment seg = [] := by
  simp [decodeSegment, parse_unicode, h]

theorem decodeSegment_invalid_scalar (seg : List Char) (n : Nat)
    (hp : fromStrRadix10 (removeAmpHash seg) = some n) (hv : ¬ n.isValidChar) :
    decodeSegment seg = [] := by
  simp [decodeSegment, parse_unicode, hp, hv]

theorem decodeSegment_digits (l : List Char) (n : Nat) (hne : l ≠ [])
    (hd : ∀ c ∈ l, 48 ≤ c.toNat ∧ c.toNat ≤ 57) (hp : parseDigits l = some n)
    (hv : n.isValidChar) : decodeSegment l = [Char.ofNat n] := by
  have hna : '&' ∉ l := by
    intro m
    have := hd '&' m
    revert this
    decide
  unfold decodeSegment
  rw [removeAmpHash_no_amp l hna]
  unfold parse_unicode
  rw [fromStrRadix10_digits l hne hd, hp]
  simp [hv]

theorem semi_notin_digits (l : List Char)
    (hd : ∀ c ∈ l, 48 ≤ c.toNat ∧ c.toNat ≤ 57) : ';' ∉ l := by
  intro m
  have := hd ';' m
  revert this
  decide

theorem decodeSegment_marker (l : List Char) :
    decodeSegment ('&' :: '#' :: l) = decodeSegment l := by
  unfold decodeSegment
  rw [removeAmpHash_marker]

/-- Claim C1: for every text composed of printable Unicode characters,
decoding the encoding returns the original text. -/
theorem claim1_round_trip_printable (T : List Char) (_h : ∀ c ∈ T, printableChar c) :
    decode (encode T) = T :=
  decode_encode T

theorem claim1_round_trip_printable_witness :
    (∀ c ∈ "AB".toList, printableChar c) ∧ decode (encode ("AB".toList)) = "AB".toList :=
  ⟨by decide, claim1_round_trip_printable ("AB".toList) (by decide)⟩

/-- Claim C2: encode maps each character, in original left-to-right order, to
the token made of the marker, the decimal code point and a semicolon, and
concatenates the tokens with no delimiter; the empty text encodes to the
empty string and the letter A encodes to its 65 token. -/
theorem claim2_encode_format :
    encode [] = [] ∧ encode ("A".toList) = "&#65;".toList ∧
      ∀ l : List Char, encode l = encodeSpec l := by
  refine ⟨rfl, by decide, ?_⟩
  intro l
  induction l with
  | nil => rfl
  | cons c rest ih =>
    have he : encode (c :: rest) = ncrToken c ++ encode rest := by
      simp [encode, ncrToken]
    rw [he, ih]
    rfl

/-- Claim C3: decode is total in the sense that every token whose residual
string fails unsigned 32-bit integer parsing, by non-digits, emptiness or
overflow, contributes the empty string instead of signalling an error; in
particular the malformed token and the empty input decode to nothing, and
the first value past u32::MAX fails the digit loop. -/
theorem claim3_parse_failure_absorbed :
    decode ("&#notanumber;".toList) = [] ∧ decode [] = [] ∧
      parseDigits ("4294967296".toList) = none ∧
      ∀ seg : List Char, fromStrRadix10 (removeAmpHash seg) = none →
        decodeSegment seg = [] :=
  ⟨by decide, rfl, by decide, decodeSegment_parse_failure⟩

theorem claim3_parse_failure_absorbed_witness :
    fromStrRadix10 (removeAmpHash ("&#nope".toList)) = none ∧
      decodeSegment ("&#nope".toList) = [] :=
  ⟨by decide, claim3_parse_failure_absorbed.2.2.2 ("&#nope".toList) (by decide)⟩

/-- Claim C4: every token whose residual parses as a u32 that is not a valid
Unicode scalar value contributes the empty string; in particular the token
holding u32::MAX decodes to nothing. -/
theorem claim4_invalid_scalar_absorbed :
    decode ("&#4294967295;".toList) = [] ∧
      ∀ (seg : List Char) (n : Nat), fromStrRadix10 (removeAmpHash seg) = some n →
        ¬ n.isValidChar → decodeSegment seg = [] :=
  ⟨by decide, decodeSegment_invalid_scalar⟩

theorem claim4_invalid_scalar_absorbed_witness :
    (fromStrRadix10 (removeAmpHash ("&#55296".toList)) = some 55296 ∧
      ¬ (55296 : Nat).isValidChar) ∧ decodeSegment ("&#55296".toList) = [] :=
  ⟨⟨by decide, by decide⟩,
    claim4_invalid_scalar_absorbed.2 ("&#55296".toList) 55296 (by decide) (by decide)⟩

/-- Claim C5, counterexample to the claim as stated: the claim says a
residual starting with a plus sign fails to parse, so the token with the
plus would contribute the empty string; in fact it decodes to the letter A,
which is not the empty string. -/
theorem claim5_counterexample :
    decode ("&#+65;".toList) = "A".toList ∧ "A".toList ≠ ([] : List Char) :=
  ⟨by decide, by decide⟩

/-- Claim C5 as amended: the decoder's integer parsing follows the unsigned
32-bit textual parsing of the implementation language, which accepts an
optional leading plus sign but rejects a leading minus sign and any
whitespace, and places no restriction on leading zeros; consequently the
token with the plus decodes to the letter A. -/
theorem claim5_amended_parsing :
    fromStrRadix10 ("+65".toList) = some 65 ∧
      fromStrRadix10 ("065".toList) = some 65 ∧
      (∀ l : List Char, fromStrRadix10 ('-' :: l) = none) ∧
      (∀ l : List Char, ' ' ∈ l → fromStrRadix10 l = none) ∧
      decode ("&#+65;".toList) = "A".toList :=
  ⟨by decide, by decide, fromStrRadix10_minus, fromStrRadix10_space, by decide⟩

theorem claim5_amended_parsing_witness :
    (' ' ∈ " 65".toList) ∧ fromStrRadix10 (" 65".toList) = none :=
  ⟨by decide, claim5_amended_parsing.2.2.2.1 (" 65".toList) (by decide)⟩

/-- Claim C6: the decoder removes every occurrence of the literal marker
anywhere in a segment, not only a leading occurrence, before parsing the
residual; the segment with the marker twice in non-prefix positions leaves
the residual 65 and the whole input decodes to the letter A. -/
theorem claim6_global_marker_removal :
    removeAmpHash ("&#6&#5".toList) = "65".toList ∧
      decode ("&#6&#5;".toList) = "A".toList ∧
      ∀ (l1 l2 : List Char), '&' ∉ l1 →
        removeAmpHash (l1 ++ '&' :: '#' :: l2) = l1 ++ removeAmpHash l2 :=
  ⟨by decide, by decide, removeAmpHash_middle⟩

theorem claim6_global_marker_removal_witness :
    ('&' ∉ "x".toList) ∧
      removeAmpHash ("x".toList ++ '&' :: '#' :: "9".toList) =
        "x".toList ++ removeAmpHash ("9".toList) :=
  ⟨by decide, claim6_global_marker_removal.2.2 ("x".toList) ("9".toList) (by decide)⟩

/-- Claim C7: a trailing semicolon produces one extra empty trailing segment
that contributes nothing, so both the well-formed token and the token with a
doubled semicolon decode to the letter A, and appending a semicolon to any
input never changes the decoded text. -/
theorem claim7_trailing_delimiter :
    decode ("&#65;".toList) = "A".toList ∧ decode ("&#65;;".toList) = "A".toList ∧
      splitSemi ("&#65;".toList) = ["&#65".toList, []] ∧
      ∀ u : List Char, decode (u ++ [';']) = decode u :=
  ⟨by decide, by decide, by decide, decode_trailing_semi⟩

/-- Claim C8: encode composed with encode is not the identity: encoding the
letter A twice yields the encoding of its own first encoding, which further
encodes the marker, digit and semicolon characters and differs from A. -/
theorem claim8_encode_not_idempotent :
    encode (encode ("A".toList)) ≠ "A".toList ∧
      encode (encode ("A".toList)) = "&#38;&#35;&#54;&#53;&#59;".toList :=
  ⟨by decide, by decide⟩

/-- Claim C9: decode accepts tokens that lack the marker and a final token
that lacks the terminating semicolon: every non-empty decimal digit string
denoting a valid Unicode scalar value decodes, with or without a trailing
semicolon and with or without the marker, to that single character. -/
theorem claim9_lenient_tokens :
    decode ("65".toList) = "A".toList ∧ decode ("&#65".toList) = "A".toList ∧
      ∀ (l : List Char) (n : Nat), l ≠ [] →
        (∀ c ∈ l, 48 ≤ c.toNat ∧ c.toNat ≤ 57) → parseDigits l = some n →
        n.isValidChar →
        decode l = [Char.ofNat n] ∧ decode (l ++ [';']) = [Char.ofNat n] ∧
          decode ('&' :: '#' :: l) = [Char.ofNat n] := by
  refine ⟨by decide, by decide, ?_⟩
  intro l n hne hd hp hv
  have hseg := decodeSegment_digits l n hne hd hp hv
  have hsemi := semi_notin_digits l hd
  have h1 : decode l = [Char.ofNat n] := by rw [decode_no_semi l hsemi, hseg]
  refine ⟨h1, ?_, ?_⟩
  · rw [decode_trailing_semi, h1]
  · have hs2 : ';' ∉ ('&' :: '#' :: l) := by
      intro m
      simp only [List.mem_cons] at m
      rcases m with h | h | h
      · exact absurd h (by decide)
      · exact absurd h (by decide)
      · exact hsemi h
    rw [decode_no_semi _ hs2, decodeSegment_marker, hseg]

theorem claim9_lenient_tokens_witness :
    ("66".toList ≠ [] ∧ (∀ c ∈ "66".toList, 48 ≤ c.toNat ∧ c.toNat ≤ 57) ∧
      parseDigits ("66".toList) = some 66 ∧ (66 : Nat).isValidChar) ∧
      decode ("66".toList) = [Char.ofNat 66] :=
  ⟨⟨by decide, by decide, by decide, by decide⟩,
    (claim9_lenient_tokens.2.2 ("66".toList) 66 (by decide) (by decide) (by decide)
      (by decide)).1⟩

/-- Claim C10: the round trip holds for every Unicode string, not only
printable ones: decoding the encoding of any character list, including
control characters, semicolons, ampersands, hash marks and the empty list,
returns the original list. -/
theorem claim10_round_trip_all (T : List Char) : decode (encode T) = T :=
  decode_encode T

end Ascii

end UtilsRust
